import Mathlib

/-!
Verification development for the auth-broker dependency-resolution runtime.

The development shallowly embeds the repository's core data model and
operations: the dependency descriptor / singleton-cache resolution path,
the injector's handling of resource-yielding (generator) dependencies,
the configuration-loader protocol (`LoaderBase.load`), the restructurer
(`pydanticize`), the alias computation (`type_name_intersection` and
`ObjectLoaderBase.alias_name`), and the attrs type-adaptation bridge
(`pydanticize_type` and `AttrsPlugin.upgrade`).

Python strings are embedded as `List Char`, Python values as the
JSON-like inductive `PyVal`, and Python exceptions as `PyExc` values
carrying a type name, a message and an optional chained cause.
-/

namespace DepBroker

/-- Embedding of a Python value (the untyped data handled by loaders and
the restructurer): `None`, booleans, integers, strings, lists and dicts.
Dicts are ordered association lists keyed by strings, as in CPython. -/
inductive PyVal where
  | none
  | bool (b : Bool)
  | int (n : Int)
  | str (s : List Char)
  | list (xs : List PyVal)
  | dict (kvs : List (List Char × PyVal))

/-- Python truthiness (`bool(x)`): `None`, `False`, `0`, empty strings,
lists and dicts are falsy; everything else is truthy. -/
def pyTruthy : PyVal → Bool
  | .none => false
  | .bool b => b
  | .int n => n != 0
  | .str s => !s.isEmpty
  | .list xs => !xs.isEmpty
  | .dict kvs => !kvs.isEmpty

/-- Embedding of a Python exception object: its class name, its message,
and the `__cause__` installed by `raise ... from e` (if any). -/
inductive PyExc where
  | mk (excType : List Char) (msg : List Char) (cause : Option PyExc)

/-- The message of an exception (`str(e)`). -/
def PyExc.message : PyExc → List Char
  | .mk _ m _ => m

/-- The chained cause of an exception (`e.__cause__`). -/
def PyExc.causeOf : PyExc → Option PyExc
  | .mk _ _ c => c

/-- The class name of an exception. -/
def PyExc.typeOf : PyExc → List Char
  | .mk t _ _ => t

/-- First value stored under a key in an ordered dict, as Python dict
lookup (keys are unique in a real dict; on an association list we take
the first occurrence). -/
def lookupKey : List (List Char × PyVal) → List Char → Option PyVal
  | [], _ => Option.none
  | (k, v) :: rest, key => if k = key then some v else lookupKey rest key

/-- Remove every entry stored under a key (deleting a key from a dict). -/
def eraseKey : List (List Char × PyVal) → List Char → List (List Char × PyVal)
  | [], _ => []
  | (k, v) :: rest, key =>
      if k = key then eraseKey rest key else (k, v) :: eraseKey rest key

-- ================================================================== --
-- Singleton cache / persistent resolution (claim C1)                 --
-- ================================================================== --

/-- State of the process-wide singleton cache together with an
allocation counter that models object identity: each resolved instance
is identified by the address (a natural number) at which it was
allocated, and two resolutions are reference-identical exactly when
they return the same address. -/
structure CacheState where
  entries : List (Nat × Nat)
  nextAddr : Nat
deriving DecidableEq, Repr

/-- First address cached under a key. -/
def cacheLookup : List (Nat × Nat) → Nat → Option Nat
  | [], _ => Option.none
  | (k, a) :: rest, key => if k = key then some a else cacheLookup rest key

/-- Modelled from the spec: the resolver's persistence algorithm
(`Load`/`Depends` resolution, whose implementation `depends.py` is not in
the source tree).  "if `descriptor.persist` is true, check the Singleton
Cache by `cache_key` before invoking the source; on a cache miss, resolve
as above and store the result before returning it. If false, always
resolve fresh and never touch the cache."  Resolving fresh allocates a
new instance at a fresh address. -/
def resolveDep (persist : Bool) (key : Nat) (s : CacheState) : Nat × CacheState :=
  if persist then
    match cacheLookup s.entries key with
    | some a => (a, s)
    | Option.none =>
        (s.nextAddr, ⟨(key, s.nextAddr) :: s.entries, s.nextAddr + 1⟩)
  else
    (s.nextAddr, ⟨s.entries, s.nextAddr + 1⟩)

/-- Well-formedness of a cache state: every cached instance address was
allocated before the allocation counter. -/
def cacheWF (s : CacheState) : Prop :=
  ∀ k a, cacheLookup s.entries k = some a → a < s.nextAddr

-- ================================================================== --
-- Injector: resource-yielding (generator) dependencies (C2, C3)      --
-- ================================================================== --

/-- Embedding of an exception identity for the generator model: what the
consumer raises and what the producer's handler may raise instead. -/
structure Exc where
  name : List Char
deriving DecidableEq, Repr

/-- What the producer's `except` block around its `yield` does with an
exception thrown in at the suspension point: re-raise it, raise a
different exception, or swallow it. -/
inductive HandlerAction where
  | reraise
  | raiseOther (e : Exc)
  | swallow
deriving DecidableEq, Repr

/-- Modelled from the spec: a resource-yielding dependency producer
(the generator support of `inject`, whose implementation is not in the
source tree).  It yields one `value`; `onExc` describes what its
exception-handling block around the yield point does when an exception
is re-injected at the suspension point. -/
structure GenProducer where
  value : PyVal
  onExc : Exc → HandlerAction

/-- Outcome of the consuming callable: it returns a value or raises. -/
inductive ConsumerOutcome where
  | ok (v : PyVal)
  | raises (e : Exc)

/-- Observable events of one injected invocation that consumes a
resource-yielding dependency. -/
inductive Event where
  | acquired
  | consumerRan
  | thrownIn (e : Exc)
  | teardown
deriving DecidableEq, Repr

/-- Result of one wrapped invocation: the value returned to the caller
("no value" is `none`), the exception propagated to the caller (if any),
and the trace of lifecycle events. -/
structure RunResult where
  ret : Option PyVal
  raised : Option Exc
  trace : List Event

/-- Modelled from the spec: running an injected callable whose single
dependency is resource-yielding.  "invoke to obtain a ResourceHandle;
advance it once to obtain the produced value; defer the remaining
teardown until the consuming invocation completes.  If the consumer
raises, the exception must be re-injected into the resource handle at
its suspension point ..., and if the producer re-raises or raises a
different exception, that exception propagates to the caller instead of
the original; if the producer swallows the exception, the overall result
becomes "no value" and no exception propagates further up." -/
def runInjected (p : GenProducer) (consumer : PyVal → ConsumerOutcome) : RunResult :=
  match consumer p.value with
  | .ok r =>
      { ret := some r, raised := Option.none
        trace := [.acquired, .consumerRan, .teardown] }
  | .raises e =>
      match p.onExc e with
      | .reraise =>
          { ret := Option.none, raised := some e
            trace := [.acquired, .consumerRan, .thrownIn e, .teardown] }
      | .raiseOther e2 =>
          { ret := Option.none, raised := some e2
            trace := [.acquired, .consumerRan, .thrownIn e, .teardown] }
      | .swallow =>
          { ret := Option.none, raised := Option.none
            trace := [.acquired, .consumerRan, .thrownIn e, .teardown] }

/-- Number of teardown events in a trace. -/
def teardownCount (tr : List Event) : Nat :=
  tr.countP (fun ev => ev = Event.teardown)

/-- The exceptions observed by the producer's handler at its suspension
point, in order. -/
def observedExcs (tr : List Event) : List Exc :=
  tr.filterMap (fun ev => match ev with
    | .thrownIn e => some e
    | _ => Option.none)

-- ================================================================== --
-- Restructurer: pydanticize (claims C5, C6)                          --
-- ================================================================== --

/-- Lowercase a string (`str.lower()`). -/
def lowerStr (s : List Char) : List Char := s.map Char.toLower

/-- Helper for `splitUnderscore`: accumulates the current segment in
reverse. -/
def splitUnderscoreAux : List Char → List Char → List (List Char)
  | [], acc => [acc.reverse]
  | c :: rest, acc =>
      if c = '_' then acc.reverse :: splitUnderscoreAux rest []
      else splitUnderscoreAux rest (c :: acc)

/-- Split a string on underscores (`str.split("_")`). -/
def splitUnderscore (s : List Char) : List (List Char) := splitUnderscoreAux s []

mutual

/-- Field lookup used by the restructurer for a model field: first a
direct hit on the field's name, then the leading-underscore/namespacing
convention that merges nested `outer -> inner` shapes into the flat key
`outer_inner`. -/
def lookupSplit (kvs : List (List Char × PyVal)) (name : List Char) : Option PyVal :=
  match lookupKey kvs name with
  | some v => some v
  | Option.none => lookupSplitAux kvs [] name
termination_by (name.length, 1)

/-- Walk the field name looking for an underscore at which to split it
into an outer dict key and an inner field name, leftmost split first. -/
def lookupSplitAux (kvs : List (List Char × PyVal)) :
    List Char → List Char → Option PyVal
  | _, [] => Option.none
  | acc, c :: rest =>
      if c = '_' then
        match lookupKey kvs acc.reverse with
        | some (PyVal.dict d) =>
            match lookupSplit d rest with
            | some v => some v
            | Option.none => lookupSplitAux kvs (c :: acc) rest
        | _ => lookupSplitAux kvs (c :: acc) rest
      else lookupSplitAux kvs (c :: acc) rest
termination_by acc rem => (rem.length, 0)

end

/-- Follow a path of nested dict keys (the multi-segment wrapper key of
a discriminated union, e.g. `multi.value1` for the discriminant value
`MULTI_VALUE1`). -/
def lookupPath (kvs : List (List Char × PyVal)) : List (List Char) → Option PyVal
  | [] => Option.none
  | [k] => lookupKey kvs k
  | k :: k2 :: rest =>
      match lookupKey kvs k with
      | some (PyVal.dict d) => lookupPath d (k2 :: rest)
      | _ => Option.none

/-- The wrapper-key path of a selected union candidate: the lowercased
discriminant value split on underscores (e.g. `MULTI_VALUE1` wraps its
fields under `multi -> value1`, `A` under `a`). -/
def wrapperPath (dval : List Char) : List (List Char) :=
  splitUnderscore (lowerStr dval)

/-- Splice step at a discriminated-union node: when the wrapper key path
leads to a dict, discard the wrapper key and merge its inner fields with
the sibling fields at the current level; otherwise leave the data as it
is. -/
def mergedData (kvs : List (List Char × PyVal)) (dval : List Char) :
    List (List Char × PyVal) :=
  match lookupPath kvs (wrapperPath dval) with
  | some (.dict inner) => eraseKey kvs ((wrapperPath dval).headD []) ++ inner
  | _ => kvs

/-- Embedding of the structural description (pydantic core schema) of a
target type, as queried by the restructurer: plain scalars, nullable
(optional) values, lists, model shapes with named fields, and tagged
(discriminated) unions whose choices map a discriminant value to a
candidate model schema. -/
inductive Schema where
  | any
  | scalar
  | nullable (s : Schema)
  | listOf (s : Schema)
  | model (fields : List (List Char × Schema))
  | union (discKey : List Char) (choices : List (List Char × Schema))

mutual

/-- Modelled from the spec: the Restructurer `pydanticize(raw, schema)`
(module `obo_core/dependency/pydanticize.py`, absent from the source
tree; its behaviour is fixed by §4.4 of the spec and the repository's
`test_pydanticize.py` fixtures).  It walks the schema in lock-step with
the raw data: at a discriminated-union node it reads the discriminant
field, locates the wrapper key derived from the lowercased selected
discriminant value (split on underscores into nested segments), discards
the wrapper and splices its inner fields up to merge with the sibling
fields, preserving the discriminant; at a model node it collects each
field either directly or through the `outer_inner` underscore merge;
leaves pass through unchanged. -/
def pydanticize : PyVal → Schema → PyVal
  | v, .any => v
  | v, .scalar => v
  | v, .nullable s =>
      match v with
      | .none => PyVal.none
      | _ => pydanticize v s
  | v, .listOf s =>
      match v with
      | .list xs => .list (pydList xs s)
      | _ => v
  | v, .model fields =>
      match v with
      | .dict kvs => .dict (pydFields kvs fields)
      | _ => v
  | v, .union dk choices =>
      match v with
      | .dict kvs =>
          match lookupKey kvs dk with
          | some (.str dval) => pydChoices kvs dval choices
          | _ => v
      | _ => v
termination_by v s => (sizeOf s, sizeOf v)

/-- Restructure every member of a list against the member schema. -/
def pydList : List PyVal → Schema → List PyVal
  | [], _ => []
  | x :: xs, s => pydanticize x s :: pydList xs s
termination_by xs s => (sizeOf s, sizeOf xs)

/-- Restructure a dict against a model's fields: each field is looked up
directly or through the underscore merge and recursively restructured;
fields with no matching data are skipped. -/
def pydFields : List (List Char × PyVal) → List (List Char × Schema) → List (List Char × PyVal)
  | _, [] => []
  | kvs, (f, fs) :: rest =>
      match lookupSplit kvs f with
      | some v => (f, pydanticize v fs) :: pydFields kvs rest
      | Option.none => pydFields kvs rest
termination_by kvs fields => (sizeOf fields, sizeOf kvs)

/-- Select the union candidate whose discriminant value matches, splice
the wrapper's inner fields up into the sibling fields (discarding the
wrapper key) when the wrapper is present, and restructure the merged
dict against the candidate schema. -/
def pydChoices : List (List Char × PyVal) → List Char → List (List Char × Schema) → PyVal
  | kvs, _, [] => .dict kvs
  | kvs, dval, (dv, cs) :: rest =>
      if dv = dval then pydanticize (.dict (mergedData kvs dval)) cs
      else pydChoices kvs dval rest
termination_by kvs dval choices => (sizeOf choices, sizeOf kvs)

end

/-- First union candidate whose discriminant value matches (the schema
lookup performed by the restructurer at a discriminated-union node). -/
def choiceLookup : List (List Char × Schema) → List Char → Option Schema
  | [], _ => Option.none
  | (dv, cs) :: rest, dval => if dv = dval then some cs else choiceLookup rest dval

/-- Whether a list of field names is duplicate-free. -/
def distinctKeys : List (List Char) → Bool
  | [] => true
  | k :: rest => (decide (¬ k ∈ rest)) && distinctKeys rest

mutual

/-- Structural well-formedness of a raw value against a schema, the
hypothesis under which restructuring is idempotent: at a model node the
field names are duplicate-free, every field is found in the data and its
value is recursively well-formed; at a union node whose discriminant is
readable, the matching candidate is a model shape, the spliced data is
well-formed against it, and the restructured result again exposes the
same discriminant and contains no wrapper key to splice. -/
def wfVal : PyVal → Schema → Bool
  | _, .any => true
  | _, .scalar => true
  | v, .nullable s =>
      match v with
      | .none => true
      | _ => wfVal v s
  | v, .listOf s =>
      match v with
      | .list xs => wfList xs s
      | _ => true
  | v, .model fields =>
      match v with
      | .dict kvs => distinctKeys (fields.map Prod.fst) && wfFields kvs fields
      | _ => true
  | v, .union dk choices =>
      match v with
      | .dict kvs =>
          match lookupKey kvs dk with
          | some (.str dval) => wfChoices kvs dk dval choices
          | _ => true
      | _ => true
termination_by v s => (sizeOf s, sizeOf v)

/-- Well-formedness of every member of a list. -/
def wfList : List PyVal → Schema → Bool
  | [], _ => true
  | x :: xs, s => wfVal x s && wfList xs s
termination_by xs s => (sizeOf s, sizeOf xs)

/-- Well-formedness of a dict against a model's fields: every field is
found and its value is well-formed against the field schema. -/
def wfFields : List (List Char × PyVal) → List (List Char × Schema) → Bool
  | _, [] => true
  | kvs, (f, fs) :: rest =>
      match lookupSplit kvs f with
      | some v => wfVal v fs && wfFields kvs rest
      | Option.none => false
termination_by kvs fields => (sizeOf fields, sizeOf kvs)

/-- Well-formedness at a union node, walking the choices exactly as the
restructurer does. -/
def wfChoices : List (List Char × PyVal) → List Char → List Char → List (List Char × Schema) → Bool
  | _, _, _, [] => true
  | kvs, dk, dval, (dv, cs) :: rest =>
      if dv = dval then
        match cs with
        | .model cfields => wfUnionCandidate kvs dk dval cfields
        | _ => false
      else wfChoices kvs dk dval rest
termination_by kvs dk dval choices => (sizeOf choices, sizeOf kvs)

/-- Well-formedness of the matching union candidate: the spliced data is
well-formed against the candidate model, and its restructured result
still exposes the discriminant value and contains no wrapper dict to
splice again. -/
def wfUnionCandidate (kvs : List (List Char × PyVal)) (dk dval : List Char)
    (cfields : List (List Char × Schema)) : Bool :=
  wfVal (.dict (mergedData kvs dval)) (.model cfields) &&
  (match lookupKey (pydFields (mergedData kvs dval) cfields) dk with
   | some (.str d2) => d2 = dval
   | _ => false) &&
  (match lookupPath (pydFields (mergedData kvs dval) cfields) (wrapperPath dval) with
   | some (.dict _) => false
   | _ => true)
termination_by (sizeOf cfields + 2, sizeOf kvs)

end

-- ================================================================== --
-- Loader protocol: LoaderBase.load (claims C4, C7, C10)              --
-- ================================================================== --

/-- Embedding of a concrete loader as consumed by `LoaderBase.load`
(src/obo_core/dependency/loaders/base.py): the outcome of its abstract
`load_raw`, its configured `default_value`, the `repr` of its target
type, the target's core schema, and the validation capability
`type_adaptor.validate_python` of the external validation engine. -/
structure LoaderModel where
  loadRawResult : Except PyExc PyVal
  default_value : Option PyVal
  typeName : List Char
  schema : Schema
  validate : PyVal → Except PyExc PyVal

/-- Value-level `copy.deepcopy`: the copy is structurally identical to
the original (the identity on structural values; the heap-level model
below accounts for the fresh storage it allocates). -/
def deepcopyVal (v : PyVal) : PyVal := v

/-- Embedding of `LoaderBase.load` (base.py lines 38-48): obtain raw
data from `load_raw`, wrapping any exception in a `RuntimeError` whose
message names the target type and whose cause is the original
exception; if the raw data is falsy and the configured default value is
truthy, return the default; otherwise restructure a deep copy of the
raw data against the core schema and validate it, propagating any
validation error unchanged. -/
def LoaderBase.load (L : LoaderModel) : Except PyExc PyVal :=
  match L.loadRawResult with
  | .error e =>
      .error (.mk "RuntimeError".toList
        ("Error loading `".toList ++ L.typeName ++ "`: ".toList ++ e.message)
        (some e))
  | .ok data =>
      match L.default_value with
      | some d =>
          if !pyTruthy data && pyTruthy d then .ok d
          else L.validate (pydanticize (deepcopyVal data) L.schema)
      | Option.none => L.validate (pydanticize (deepcopyVal data) L.schema)

/-- A heap of allocated Python objects: a map from addresses to current
structural values, plus the next fresh address. -/
structure Heap where
  mem : List (Nat × PyVal)
  next : Nat

/-- Current value stored at an address. -/
def heapLookup : List (Nat × PyVal) → Nat → Option PyVal
  | [], _ => Option.none
  | (a, v) :: rest, addr => if a = addr then some v else heapLookup rest addr

/-- Value at an address, defaulting to `None` for unallocated cells. -/
def heapGet (h : Heap) (a : Nat) : PyVal := (heapLookup h.mem a).getD PyVal.none

/-- Overwrite the object at an address (an in-place mutation). -/
def heapWrite (h : Heap) (a : Nat) (v : PyVal) : Heap := ⟨(a, v) :: h.mem, h.next⟩

/-- `copy.deepcopy` at the heap level: allocate fresh storage holding a
value structurally identical to the original. -/
def deepcopyHeap (h : Heap) (a : Nat) : Nat × Heap :=
  (h.next, ⟨(h.next, heapGet h a) :: h.mem, h.next + 1⟩)

/-- Heap-level embedding of the restructuring step of `LoaderBase.load`,
`data_restructured = pydanticize(deepcopy(data), self.core_schema)`: the
restructurer receives the deep copy of the raw data and `mutate` stands
for whatever in-place modification it performs on its argument. -/
def loadRestructureStep (h : Heap) (rawAddr : Nat) (mutate : PyVal → PyVal) : Nat × Heap :=
  let copied := deepcopyHeap h rawAddr
  (copied.fst, heapWrite copied.snd copied.fst (mutate (heapGet copied.snd copied.fst)))

/-- Well-formed heap: every allocated address is below the allocation
counter. -/
def heapWF (h : Heap) : Prop := ∀ a v, heapLookup h.mem a = some v → a < h.next

-- ================================================================== --
-- Alias computation (claim C8)                                       --
-- ================================================================== --

/-- Whether the pattern is a prefix of the text. -/
def listStarts : List Char → List Char → Bool
  | [], _ => true
  | _ :: _, [] => false
  | a :: p, b :: t => a = b && listStarts p t

/-- Whether `p` occurs as a contiguous substring of `t`. -/
def substrOf (p : List Char) : List Char → Bool
  | [] => p.isEmpty
  | b :: t => listStarts p (b :: t) || substrOf p t

/-- Try each starting position in turn, returning the first substring of
`h` of length `len` that every other name also contains. -/
def firstCommonAux (h : List Char) (others : List (List Char)) (len : Nat) :
    List Nat → Option (List Char)
  | [] => Option.none
  | i :: is =>
      if others.all (fun n => substrOf ((h.drop i).take len) n) then
        some ((h.drop i).take len)
      else firstCommonAux h others len is

/-- The leftmost substring of `h` of the given length that every other
name also contains. -/
def firstCommonOfLength (h : List Char) (others : List (List Char)) (len : Nat) :
    Option (List Char) :=
  firstCommonAux h others len (List.range (h.length + 1 - len))

/-- Search for a common substring of the given length, then of each
shorter length in turn. -/
def tniAux (h : List Char) (others : List (List Char)) : Nat → Option (List Char)
  | 0 => firstCommonOfLength h others 0
  | len + 1 =>
      match firstCommonOfLength h others (len + 1) with
      | some s => some s
      | Option.none => tniAux h others len

/-- Modelled from the spec: `type_name_intersection` from
`obo_core/dependency/utils.py` (absent from the source tree): the
longest common contiguous substring shared by all candidate type names,
preferring the leftmost occurrence in the first name; the empty
collection yields the empty string. -/
def type_name_intersection (names : List (List Char)) : List Char :=
  match names with
  | [] => []
  | h :: t => (tniAux h t h.length).getD []

/-- Embedding of `ObjectLoaderBase.alias_name` (base.py lines 83-91):
compute `type_name_intersection` over the candidate type names and raise
`ValueError` when the result is empty. -/
def alias_name (names : List (List Char)) : Except PyExc (List Char) :=
  let assumedName := type_name_intersection names
  if assumedName.isEmpty then
    .error (.mk "ValueError".toList
      "Unable to create an alias for types. Ensure there is a naming overlap between each of the types.".toList
      Option.none)
  else .ok assumedName

-- ================================================================== --
-- Type-adaptation bridge: pydanticize_type / AttrsPlugin (claim C9)  --
-- ================================================================== --

/-- A foreign (or pydantic) type, identified by name. -/
structure PyType where
  tname : List Char
deriving DecidableEq

/-- Errors raised by the casting helpers. -/
inductive CastErr where
  | typeError (msg : List Char)
  | runtimeError (msg : List Char)

/-- Environment describing the external collaborators of the bridge:
whether pydantic natively supports a type (`is_supported_by_pydantic`),
whether the attrs plugin matches it (`AttrsPlugin.matches`), and the
outcome of the plugin's `upgrade` (which may raise). -/
structure TypeEnv where
  supported : PyType → Bool
  pluginMatches : PyType → Bool
  pluginUpgrade : PyType → Except PyExc PyType

/-- Embedding of `pydanticize_type` (cast/helpers.py lines 56-98): try
native pydantic support first and return the type unchanged when it is
supported; otherwise look up a plugin (TypeError when none matches),
upgrade through the plugin (RuntimeError when the plugin raises), and
verify the upgraded type is pydantic-valid (TypeError otherwise). -/
def pydanticize_type (env : TypeEnv) (t : PyType) : Except CastErr PyType :=
  if env.supported t then .ok t
  else if env.pluginMatches t then
    match env.pluginUpgrade t with
    | .error _ =>
        .error (.runtimeError "could not be converted to a Pydantic model by plugin".toList)
    | .ok u =>
        if env.supported u then .ok u
        else .error (.typeError "was converted, but the result is not valid for pydantic".toList)
  else .error (.typeError "is not supported by pydantic or any available type plugins".toList)

/-- The default of an attrs field: `NOTHING` (required), a plain default
value, or a default factory. -/
inductive AttrsDefault where
  | nothing
  | value (v : PyVal)
  | factory (fac : List Char)

/-- An attrs field as reported by `attrs.fields`: its name, annotation,
default, `init` flag and alias. -/
structure AttrsField where
  fname : List Char
  ann : PyType
  default : AttrsDefault
  init : Bool
  falias : Option (List Char)

/-- A non-field member of the foreign class as reported by
`inspect.getmembers`: its name and the classification used by
`_should_include_member`. -/
structure Member where
  mname : List Char
  isFunction : Bool
  isDescriptor : Bool
  isCallable : Bool

/-- A foreign attrs-decorated class. -/
structure AttrsClass where
  cname : List Char
  fields : List AttrsField
  members : List Member

/-- The field specification of the produced pydantic model: required,
plain default, or default factory. -/
inductive PydFieldSpec where
  | required
  | defaultVal (v : PyVal)
  | defaultFactory (fac : List Char)

/-- Description of the pydantic model built by `AttrsPlugin.upgrade`:
its fields with their (possibly converted) annotations and specs, the
private attributes, the model-level `arbitrary_types_allowed` flag, the
mixin members carried over, and the two proxy tables. -/
structure PydModelDesc where
  mdlName : List Char
  fields : List (List Char × PyType × PydFieldSpec)
  privateAttrs : List (List Char × Option PyVal)
  arbitraryTypes : Bool
  mixinMembers : List (List Char)
  underscoreProxies : List (List Char × List Char)
  privateNameProxies : List (List Char × List Char)

/-- Strip all leading underscores (`attr_name.lstrip("_")`). -/
def dropUnderscores : List Char → List Char
  | '_' :: rest => dropUnderscores rest
  | s => s

/-- The public pydantic field name chosen for an attrs field: a truthy
alias wins; else a name with a leading underscore is stripped; else the
attrs name itself. -/
def publicNameOf (f : AttrsField) : List Char :=
  match f.falias with
  | some a =>
      if a.isEmpty then
        if f.fname.head? = some '_' then dropUnderscores f.fname else f.fname
      else a
  | Option.none =>
      if f.fname.head? = some '_' then dropUnderscores f.fname else f.fname

/-- `_as_private_attr_default`: the raw default when one is set, else
`None` (a factory default stores the factory object itself; the model
keeps only that it is not a plain value). -/
def privDefaultOf : AttrsDefault → Option PyVal
  | .nothing => Option.none
  | .value v => some v
  | .factory _ => Option.none

/-- Annotation conversion inside `AttrsPlugin.upgrade`: keep a natively
supported annotation; otherwise convert it through `pydanticize_type`;
when that raises, keep the original annotation and report failure (the
second component), which enables `arbitrary_types_allowed`. -/
def convertAnn (env : TypeEnv) (ann : PyType) : PyType × Bool :=
  if env.supported ann then (ann, false)
  else
    match pydanticize_type env ann with
    | .ok u => (u, false)
    | .error _ => (ann, true)

/-- Accumulated outcome of the field-processing loop of
`AttrsPlugin.upgrade`. -/
structure FieldAcc where
  pydFieldList : List (List Char × PyType × PydFieldSpec)
  privateAttrs : List (List Char × Option PyVal)
  underscoreProxies : List (List Char × List Char)
  privateNameProxies : List (List Char × List Char)
  needArbitrary : Bool
  attrsFieldNames : List (List Char)
  privateSunderNames : List (List Char)

/-- The empty accumulator. -/
def FieldAcc.empty : FieldAcc := ⟨[], [], [], [], false, [], []⟩

/-- The field spec chosen by the field-processing loop: a default
factory wins, then a plain default, and `NOTHING` means required. -/
def specOf : AttrsDefault → PydFieldSpec
  | .factory fac => PydFieldSpec.defaultFactory fac
  | .value v => PydFieldSpec.defaultVal v
  | .nothing => PydFieldSpec.required

/-- The field-processing loop of `AttrsPlugin.upgrade` (attrs.py lines
77-122), preserving field order: `init=False` fields become private
attributes under a sunder name (with a proxy when the name changed);
other fields get their public name, their converted annotation, and a
spec that prefers a default factory, then a plain default, and is
required when the default is `NOTHING`. -/
def processFields (env : TypeEnv) : List AttrsField → FieldAcc
  | [] => FieldAcc.empty
  | f :: rest =>
      let acc := processFields env rest
      if f.init = false then
        let privName := if f.fname.head? = some '_' then f.fname else '_' :: f.fname
        { acc with
          privateAttrs := (privName, privDefaultOf f.default) :: acc.privateAttrs
          privateSunderNames := privName :: acc.privateSunderNames
          attrsFieldNames := f.fname :: acc.attrsFieldNames
          privateNameProxies :=
            if privName = f.fname then acc.privateNameProxies
            else (f.fname, privName) :: acc.privateNameProxies }
      else
        let pub := publicNameOf f
        let conv := convertAnn env f.ann
        { acc with
          pydFieldList := (pub, conv.fst, specOf f.default) :: acc.pydFieldList
          attrsFieldNames := f.fname :: acc.attrsFieldNames
          needArbitrary := conv.snd || acc.needArbitrary
          underscoreProxies :=
            if f.fname.head? = some '_' then (f.fname, pub) :: acc.underscoreProxies
            else acc.underscoreProxies }

/-- Whether a member name is a dunder (`__name__`). -/
def isDunder (n : List Char) : Bool :=
  listStarts "__".toList n && listStarts "__".toList n.reverse

/-- Embedding of `_should_include_member`: exclude dunders, pydantic
field names, attrs field names and the created sunder names; keep
instance functions, descriptors and non-callable constants. -/
def shouldIncludeMember (pubNames attrsNames sunderNames : List (List Char)) (m : Member) : Bool :=
  !isDunder m.mname &&
  !(pubNames.contains m.mname) &&
  !(attrsNames.contains m.mname) &&
  !(sunderNames.contains m.mname) &&
  (m.isFunction || m.isDescriptor || !m.isCallable)

/-- Embedding of `AttrsPlugin.upgrade` (attrs.py lines 60-183): process
the attrs fields, build the mixin carrying the included members, enable
`arbitrary_types_allowed` exactly when some annotation conversion
failed, and install the proxy tables (a private-name proxy is skipped
when its public name is already a pydantic field). -/
def AttrsPlugin.upgrade (env : TypeEnv) (c : AttrsClass) : PydModelDesc :=
  let acc := processFields env c.fields
  let pubNames := acc.pydFieldList.map (·.1)
  { mdlName := c.cname
    fields := acc.pydFieldList
    privateAttrs := acc.privateAttrs
    arbitraryTypes := acc.needArbitrary
    mixinMembers :=
      (c.members.filter
        (shouldIncludeMember pubNames acc.attrsFieldNames acc.privateSunderNames)).map
        (·.mname)
    underscoreProxies := acc.underscoreProxies
    privateNameProxies :=
      acc.privateNameProxies.filter (fun p => !(pubNames.contains p.1)) }

-- ================================================================== --
-- Concrete fixtures (from the repository's test-suite)               --
-- ================================================================== --

/-- Core-schema embedding of the candidate models `A`, `B`, `C` of the
`ABC` discriminated union from `test_pydanticize.py` (each has a
`letter` literal and an `extra` string). -/
def abcCandidate : Schema := .model [("letter".toList, .scalar), ("extra".toList, .scalar)]

/-- The union choices of `ABC`, keyed by discriminant value. -/
def abcChoices : List (List Char × Schema) :=
  [("A".toList, abcCandidate), ("B".toList, abcCandidate), ("C".toList, abcCandidate)]

/-- Core-schema embedding of `ABC = Annotated[Union[A, B, C],
Discriminator("letter")]`. -/
def abcSchema : Schema := .union "letter".toList abcChoices

/-- The inner fields of the `a` wrapper in the nested fixture. -/
def abcInner : List (List Char × PyVal) := [("extra".toList, .str "blah".toList)]

/-- The entries of the nested raw payload of the single-segment fixture. -/
def abcKvs : List (List Char × PyVal) :=
  [("letter".toList, .str "A".toList), ("a".toList, .dict abcInner)]

/-- The nested raw payload of the single-segment fixture. -/
def abcRawA : PyVal := .dict abcKvs

/-- The flattened payload that the fixture expects. -/
def abcFlatA : PyVal :=
  .dict [("letter".toList, .str "A".toList), ("extra".toList, .str "blah".toList)]

/-- A loader whose raw data is empty and whose configured default value
is falsy (the integer `0`), used to separate "configured" from "truthy"
in the default-value branch of `load`. -/
def falsyDefaultLoader : LoaderModel where
  loadRawResult := .ok (.dict [])
  default_value := some (.int 0)
  typeName := "Foo".toList
  schema := .any
  validate := fun _ => .ok (.str "validated".toList)

/-- A loader with empty raw data and a truthy configured default. -/
def truthyDefaultLoader : LoaderModel where
  loadRawResult := .ok (.dict [])
  default_value := some (.int 1)
  typeName := "Foo".toList
  schema := .any
  validate := fun _ => .ok (.str "validated".toList)

/-- A loader whose `load_raw` raises `KeyError`. -/
def failingRawLoader : LoaderModel where
  loadRawResult := .error (.mk "KeyError".toList "MISSING_VAR".toList Option.none)
  default_value := Option.none
  typeName := "FooClass".toList
  schema := .any
  validate := fun _ => .ok PyVal.none

/-- A loader whose raw data does not validate: the validation engine
rejects it with a `ValidationError`. -/
def invalidDataLoader : LoaderModel where
  loadRawResult := .ok (.dict [("foo".toList, .int 1)])
  default_value := Option.none
  typeName := "FooClass".toList
  schema := .any
  validate := fun _ => .error (.mk "ValidationError".toList "1 validation error".toList Option.none)

/-- An environment in which pydantic supports every type natively. -/
def allSupportedEnv : TypeEnv where
  supported := fun _ => true
  pluginMatches := fun _ => false
  pluginUpgrade := fun _ => .error (.mk "TypeError".toList [] Option.none)

/-- The required field `x: int` of the attrs test class. -/
def attrsFieldX : AttrsField := ⟨"x".toList, ⟨"int".toList⟩, .nothing, true, Option.none⟩

/-- The defaulted field `y: str = "hi"` of the attrs test class. -/
def attrsFieldY : AttrsField :=
  ⟨"y".toList, ⟨"str".toList⟩, .value (.str "hi".toList), true, Option.none⟩

/-- The factory field `z: list[int] = attrs.field(factory=list)` of the
attrs test class. -/
def attrsFieldZ : AttrsField :=
  ⟨"z".toList, ⟨"list".toList⟩, .factory "list".toList, true, Option.none⟩

/-- A plain instance method carried over by the mixin. -/
def attrsMemberTotal : Member := ⟨"total".toList, true, false, true⟩

/-- The attrs test class of `test_simple_required_and_defaults`, plus a
method member. -/
def attrsClassA : AttrsClass :=
  ⟨"A".toList, [attrsFieldX, attrsFieldY, attrsFieldZ], [attrsMemberTotal]⟩

/-- A producer that yields a string and re-raises from its exception
handler, as in `test_sync_generator_loader_handles_exception_block`. -/
def reraisingProducer : GenProducer where
  value := .str "sync-gen".toList
  onExc := fun _ => .reraise

/-- A consumer that raises `ValueError` whatever it receives, as the
test bodies that `raise ValueError("kaboom")`. -/
def raisingConsumer : PyVal → ConsumerOutcome := fun _ => .raises ⟨"ValueError".toList⟩

-- ================================================================== --
-- Theorems                                                           --
-- ================================================================== --

/-- Lookup in a cache after inserting a binding at the front. -/
theorem cacheLookup_cons_self (k a : Nat) (l : List (Nat × Nat)) :
    cacheLookup ((k, a) :: l) k = some a := by
  simp [cacheLookup]

/-- C1: for every load target, two resolutions with `persist=true` and
the same cache key return the identical instance (reference identity),
while a resolution with `persist=false` returns an instance that is not
reference-identical to the persistent one nor to another fresh
resolution of the same target. -/
theorem resolve_persistence_identity (s : CacheState) (k : Nat) (hwf : cacheWF s) :
    ((resolveDep true k s).fst = (resolveDep true k (resolveDep true k s).snd).fst) ∧
    ((resolveDep true k s).fst ≠
      (resolveDep false k (resolveDep true k (resolveDep true k s).snd).snd).fst) ∧
    ((resolveDep true k (resolveDep true k s).snd).fst ≠
      (resolveDep false k (resolveDep true k (resolveDep true k s).snd).snd).fst) ∧
    ((resolveDep false k s).fst ≠ (resolveDep false k (resolveDep false k s).snd).fst) := by
  cases h : cacheLookup s.entries k with
  | none =>
      have h2 : cacheLookup ((k, s.nextAddr) :: s.entries) k = some s.nextAddr :=
        cacheLookup_cons_self k s.nextAddr s.entries
      refine ⟨?_, ?_, ?_, ?_⟩ <;> simp [resolveDep, h, h2]
  | some a =>
      have ha : a < s.nextAddr := hwf k a h
      refine ⟨?_, ?_, ?_, ?_⟩ <;> simp [resolveDep, h] <;> omega

/-- Witness for C1: the persistence identity at a fresh empty cache. -/
theorem resolve_persistence_identity_witness :
    ((resolveDep true 0 ⟨[], 0⟩).fst = (resolveDep true 0 (resolveDep true 0 ⟨[], 0⟩).snd).fst) ∧
    ((resolveDep true 0 ⟨[], 0⟩).fst ≠
      (resolveDep false 0 (resolveDep true 0 (resolveDep true 0 ⟨[], 0⟩).snd).snd).fst) ∧
    ((resolveDep true 0 (resolveDep true 0 ⟨[], 0⟩).snd).fst ≠
      (resolveDep false 0 (resolveDep true 0 (resolveDep true 0 ⟨[], 0⟩).snd).snd).fst) ∧
    ((resolveDep false 0 ⟨[], 0⟩).fst ≠ (resolveDep false 0 (resolveDep false 0 ⟨[], 0⟩).snd).fst) :=
  resolve_persistence_identity ⟨[], 0⟩ 0 (by intro k a h; simp [cacheLookup] at h)

/-- C2: when the consumer of a resource-yielding dependency raises `E`,
the producer's handler at its suspension point observes exactly `E`;
re-raising propagates `E` to the caller, raising a different exception
propagates that exception instead, and swallowing yields no value and no
exception. -/
theorem generator_exception_visibility (p : GenProducer)
    (consumer : PyVal → ConsumerOutcome) (e : Exc)
    (hc : consumer p.value = .raises e) :
    observedExcs (runInjected p consumer).trace = [e] ∧
    (p.onExc e = .reraise → (runInjected p consumer).raised = some e) ∧
    (∀ e2, p.onExc e = .raiseOther e2 → (runInjected p consumer).raised = some e2) ∧
    (p.onExc e = .swallow →
      (runInjected p consumer).raised = Option.none ∧
      (runInjected p consumer).ret = Option.none) := by
  cases ha : p.onExc e <;>
    simp [runInjected, hc, ha, observedExcs, List.filterMap]

/-- Witness for C2: a producer that re-raises, consumed by a callable
raising `ValueError`. -/
theorem generator_exception_visibility_witness :
    observedExcs (runInjected reraisingProducer raisingConsumer).trace =
      [⟨"ValueError".toList⟩] ∧
    (reraisingProducer.onExc ⟨"ValueError".toList⟩ = .reraise →
      (runInjected reraisingProducer raisingConsumer).raised = some ⟨"ValueError".toList⟩) ∧
    (∀ e2, reraisingProducer.onExc ⟨"ValueError".toList⟩ = .raiseOther e2 →
      (runInjected reraisingProducer raisingConsumer).raised = some e2) ∧
    (reraisingProducer.onExc ⟨"ValueError".toList⟩ = .swallow →
      (runInjected reraisingProducer raisingConsumer).raised = Option.none ∧
      (runInjected reraisingProducer raisingConsumer).ret = Option.none) :=
  generator_exception_visibility reraisingProducer raisingConsumer ⟨"ValueError".toList⟩ rfl

/-- C3: the producer's teardown code after the yield point runs exactly
once per resolution, whether the consuming callable returns normally or
raises. -/
theorem generator_teardown_exactly_once (p : GenProducer)
    (consumer : PyVal → ConsumerOutcome) :
    teardownCount (runInjected p consumer).trace = 1 := by
  cases hc : consumer p.value with
  | ok r => simp [runInjected, hc, teardownCount]
  | raises e => cases ha : p.onExc e <;> simp [runInjected, hc, ha, teardownCount]

/-- C10: the restructuring step of `load` operates on a deep copy, so
whatever in-place mutation the restructurer performs, the object
returned by `load_raw` is unchanged afterwards, and the restructurer
received a value structurally identical to the raw data. -/
theorem load_raw_not_mutated (h : Heap) (rawAddr : Nat) (mf : PyVal → PyVal)
    (hwf : heapWF h) (v0 : PyVal) (halloc : heapLookup h.mem rawAddr = some v0) :
    heapGet (loadRestructureStep h rawAddr mf).snd rawAddr = heapGet h rawAddr ∧
    (loadRestructureStep h rawAddr mf).fst ≠ rawAddr ∧
    heapGet (loadRestructureStep h rawAddr mf).snd (loadRestructureStep h rawAddr mf).fst
      = mf (heapGet h rawAddr) := by
  have hlt : rawAddr < h.next := hwf rawAddr v0 halloc
  have hne : ¬(h.next = rawAddr) := by omega
  refine ⟨?_, ?_, ?_⟩
  · simp [loadRestructureStep, deepcopyHeap, heapWrite, heapGet, heapLookup, hne]
  · simp [loadRestructureStep, deepcopyHeap, heapWrite]
    omega
  · simp [loadRestructureStep, deepcopyHeap, heapWrite, heapGet, heapLookup]

/-- Witness for C10: a heap holding one raw dict at address 0. -/
theorem load_raw_not_mutated_witness :
    heapGet (loadRestructureStep ⟨[(0, .dict [("k".toList, .int 1)])], 1⟩ 0
        (fun _ => PyVal.none)).snd 0
      = heapGet ⟨[(0, .dict [("k".toList, .int 1)])], 1⟩ 0 ∧
    (loadRestructureStep ⟨[(0, .dict [("k".toList, .int 1)])], 1⟩ 0
        (fun _ => PyVal.none)).fst ≠ 0 ∧
    heapGet (loadRestructureStep ⟨[(0, .dict [("k".toList, .int 1)])], 1⟩ 0
        (fun _ => PyVal.none)).snd
      (loadRestructureStep ⟨[(0, .dict [("k".toList, .int 1)])], 1⟩ 0
        (fun _ => PyVal.none)).fst
      = (fun _ => PyVal.none) (heapGet ⟨[(0, .dict [("k".toList, .int 1)])], 1⟩ 0) :=
  load_raw_not_mutated ⟨[(0, .dict [("k".toList, .int 1)])], 1⟩ 0 (fun _ => PyVal.none)
    (by intro a v hv
        by_cases ha : (0 : Nat) = a
        · cases ha; decide
        · simp [heapLookup, ha] at hv)
    (.dict [("k".toList, .int 1)]) (by simp [heapLookup])

/-- A pattern is a substring of itself followed by anything. -/
theorem listStarts_append_self (p t : List Char) : listStarts p (p ++ t) = true := by
  induction p with
  | nil => simp [listStarts]
  | cons a p ih => simp [listStarts, ih]

/-- A prefix occurrence is a substring occurrence. -/
theorem substrOf_of_listStarts (p t : List Char) (h : listStarts p t = true) :
    substrOf p t = true := by
  cases t with
  | nil =>
      cases p with
      | nil => simp [substrOf]
      | cons a p => simp [listStarts] at h
  | cons b t2 => simp [substrOf, h]

/-- Substring occurrences survive prepending text. -/
theorem substrOf_append_left (p t x : List Char) (h : substrOf p t = true) :
    substrOf p (x ++ t) = true := by
  induction x with
  | nil => simpa using h
  | cons c x ih => simp [substrOf, ih]

/-- A string occurs inside any text that splices it between a prefix and
a suffix. -/
theorem substrOf_sandwich (p pre suf : List Char) : substrOf p (pre ++ (p ++ suf)) = true :=
  substrOf_append_left p (p ++ suf) pre
    (substrOf_of_listStarts p (p ++ suf) (listStarts_append_self p suf))

/-- Counterexample to C4 as stated: a loader whose raw data is empty and
whose default value is configured but falsy (`0`) does not return the
configured default — `load` proceeds to restructuring and validation
because the code tests `self.default_value` for truthiness, not for
being configured. -/
theorem load_default_falsy_cex :
    pyTruthy (PyVal.dict []) = false ∧
    falsyDefaultLoader.loadRawResult = .ok (.dict []) ∧
    falsyDefaultLoader.default_value = some (.int 0) ∧
    ¬ LoaderBase.load falsyDefaultLoader = .ok (.int 0) := by
  refine ⟨rfl, rfl, rfl, ?_⟩
  simp [LoaderBase.load, falsyDefaultLoader, pyTruthy, deepcopyVal, pydanticize]

/-- C4 (amended): `load` first obtains raw data from `load_raw`; when
the raw data is falsy and the configured default value is truthy it
returns the default; in every other case (truthy raw data, no configured
default, or a falsy configured default) it restructures the raw data
against the type's structural description and validates it through the
type's validation capability. -/
theorem load_default_amended (L : LoaderModel) (data : PyVal)
    (hraw : L.loadRawResult = .ok data) :
    (∀ d, L.default_value = some d → pyTruthy data = false → pyTruthy d = true →
        LoaderBase.load L = .ok d) ∧
    (pyTruthy data = true →
        LoaderBase.load L = L.validate (pydanticize data L.schema)) ∧
    (L.default_value = Option.none →
        LoaderBase.load L = L.validate (pydanticize data L.schema)) ∧
    (∀ d, L.default_value = some d → pyTruthy d = false →
        LoaderBase.load L = L.validate (pydanticize data L.schema)) := by
  refine ⟨?_, ?_, ?_, ?_⟩
  · intro d hd hdata hdt
    simp [LoaderBase.load, hraw, hd, hdata, hdt, deepcopyVal]
  · intro hdata
    cases hd : L.default_value with
    | none => simp [LoaderBase.load, hraw, hd, deepcopyVal]
    | some d => simp [LoaderBase.load, hraw, hd, hdata, deepcopyVal]
  · intro hd
    simp [LoaderBase.load, hraw, hd, deepcopyVal]
  · intro d hd hdf
    simp [LoaderBase.load, hraw, hd, hdf, deepcopyVal]

/-- Witness for the amended C4, at a loader with empty raw data and a
truthy configured default. -/
theorem load_default_amended_witness :
    (∀ d, truthyDefaultLoader.default_value = some d →
        pyTruthy (PyVal.dict []) = false → pyTruthy d = true →
        LoaderBase.load truthyDefaultLoader = .ok d) ∧
    (pyTruthy (PyVal.dict []) = true →
        LoaderBase.load truthyDefaultLoader =
          truthyDefaultLoader.validate
            (pydanticize (PyVal.dict []) truthyDefaultLoader.schema)) ∧
    (truthyDefaultLoader.default_value = Option.none →
        LoaderBase.load truthyDefaultLoader =
          truthyDefaultLoader.validate
            (pydanticize (PyVal.dict []) truthyDefaultLoader.schema)) ∧
    (∀ d, truthyDefaultLoader.default_value = some d → pyTruthy d = false →
        LoaderBase.load truthyDefaultLoader =
          truthyDefaultLoader.validate
            (pydanticize (PyVal.dict []) truthyDefaultLoader.schema)) :=
  load_default_amended truthyDefaultLoader (.dict []) rfl

/-- C7: when `load_raw` raises `e`, `load` raises a `RuntimeError` whose
message names the target type and whose chained cause is `e`; when
validation of the restructured data fails, the validation engine's error
propagates to the caller unchanged. -/
theorem load_error_propagation (L1 L2 : LoaderModel) (e : PyExc) (data : PyVal) (ve : PyExc)
    (he : L1.loadRawResult = .error e)
    (h2 : L2.loadRawResult = .ok data)
    (hnd : L2.default_value = Option.none ∨ pyTruthy data = true ∨
      (∃ d, L2.default_value = some d ∧ pyTruthy d = false))
    (hv : L2.validate (pydanticize data L2.schema) = .error ve) :
    LoaderBase.load L1 =
      .error (.mk "RuntimeError".toList
        ("Error loading `".toList ++ L1.typeName ++ "`: ".toList ++ e.message) (some e)) ∧
    substrOf L1.typeName
      ("Error loading `".toList ++ L1.typeName ++ "`: ".toList ++ e.message) = true ∧
    LoaderBase.load L2 = .error ve := by
  refine ⟨?_, ?_, ?_⟩
  · simp [LoaderBase.load, he]
  · simpa using
      substrOf_sandwich L1.typeName "Error loading `".toList ("`: ".toList ++ e.message)
  · rcases hnd with h | h | ⟨d, hd, hdf⟩
    · simp [LoaderBase.load, h2, h, deepcopyVal, hv]
    · cases hdv : L2.default_value <;> simp [LoaderBase.load, h2, hdv, h, deepcopyVal, hv]
    · simp [LoaderBase.load, h2, hd, hdf, deepcopyVal, hv]

/-- Witness for C7: a loader whose `load_raw` raises `KeyError`, and one
whose raw data fails validation. -/
theorem load_error_propagation_witness :
    LoaderBase.load failingRawLoader =
      .error (.mk "RuntimeError".toList
        ("Error loading `".toList ++ failingRawLoader.typeName ++ "`: ".toList ++
          (PyExc.mk "KeyError".toList "MISSING_VAR".toList Option.none).message)
        (some (.mk "KeyError".toList "MISSING_VAR".toList Option.none))) ∧
    substrOf failingRawLoader.typeName
      ("Error loading `".toList ++ failingRawLoader.typeName ++ "`: ".toList ++
        (PyExc.mk "KeyError".toList "MISSING_VAR".toList Option.none).message) = true ∧
    LoaderBase.load invalidDataLoader =
      .error (.mk "ValidationError".toList "1 validation error".toList Option.none) :=
  load_error_propagation failingRawLoader invalidDataLoader
    (.mk "KeyError".toList "MISSING_VAR".toList Option.none)
    (.dict [("foo".toList, .int 1)])
    (.mk "ValidationError".toList "1 validation error".toList Option.none)
    rfl rfl (Or.inl rfl) rfl

/-- Lookup distributes over appending when the key is found on the
left. -/
theorem lookupKey_append_some (l1 l2 : List (List Char × PyVal)) (k : List Char) (v : PyVal)
    (h : lookupKey l1 k = some v) : lookupKey (l1 ++ l2) k = some v := by
  induction l1 with
  | nil => simp [lookupKey] at h
  | cons kv rest ih =>
      obtain ⟨k0, v0⟩ := kv
      by_cases hk : k0 = k
      · simp [lookupKey, hk] at h ⊢
        exact h
      · simp [lookupKey, hk] at h ⊢
        exact ih h

/-- Lookup falls through to the right when the key is absent on the
left. -/
theorem lookupKey_append_none (l1 l2 : List (List Char × PyVal)) (k : List Char)
    (h : lookupKey l1 k = Option.none) : lookupKey (l1 ++ l2) k = lookupKey l2 k := by
  induction l1 with
  | nil => simp
  | cons kv rest ih =>
      obtain ⟨k0, v0⟩ := kv
      by_cases hk : k0 = k
      · simp [lookupKey, hk] at h
      · simp [lookupKey, hk] at h ⊢
        exact ih h

/-- Deleting a different key does not change a lookup. -/
theorem lookupKey_eraseKey_ne (l : List (List Char × PyVal)) (k ek : List Char)
    (h : k ≠ ek) : lookupKey (eraseKey l ek) k = lookupKey l k := by
  induction l with
  | nil => simp [eraseKey]
  | cons kv rest ih =>
      obtain ⟨k0, v0⟩ := kv
      by_cases he : k0 = ek
      · have hk : ¬(k0 = k) := by
          intro hc
          exact h (hc ▸ he)
        simp [eraseKey, he, lookupKey, hk, ih, Ne.symm h]
      · by_cases hk : k0 = k
        · simp [eraseKey, he, lookupKey, hk, h]
        · simp [eraseKey, he, lookupKey, hk, ih]

/-- The restructurer's walk of the union choices agrees with the
first-match characterization: a matching candidate restructures the
spliced data against that candidate's schema. -/
theorem pydChoices_eq (kvs : List (List Char × PyVal)) (dval : List Char)
    (choices : List (List Char × Schema)) (cs : Schema)
    (hch : choiceLookup choices dval = some cs) :
    pydChoices kvs dval choices = pydanticize (.dict (mergedData kvs dval)) cs := by
  induction choices with
  | nil => simp [choiceLookup] at hch
  | cons c rest ih =>
      obtain ⟨dv, c0⟩ := c
      by_cases hdv : dv = dval
      · simp [choiceLookup, hdv] at hch
        simp [pydChoices, hdv, hch]
      · simp [choiceLookup, hdv] at hch
        simp [pydChoices, hdv, ih hch]

/-- With no matching candidate the union node leaves the data
unchanged. -/
theorem pydChoices_none (kvs : List (List Char × PyVal)) (dval : List Char)
    (choices : List (List Char × Schema))
    (hch : choiceLookup choices dval = Option.none) :
    pydChoices kvs dval choices = .dict kvs := by
  induction choices with
  | nil => simp [pydChoices]
  | cons c rest ih =>
      obtain ⟨dv, c0⟩ := c
      by_cases hdv : dv = dval
      · simp [choiceLookup, hdv] at hch
      · simp [choiceLookup, hdv] at hch
        simp [pydChoices, hdv, ih hch]

/-- At a dict with a readable string discriminant, the union node walks
its choices. -/
theorem pydanticize_union_str (kvs : List (List Char × PyVal)) (dk dval : List Char)
    (choices : List (List Char × Schema))
    (h : lookupKey kvs dk = some (.str dval)) :
    pydanticize (.dict kvs) (.union dk choices) = pydChoices kvs dval choices := by
  simp [pydanticize, h]

/-- C5: at a discriminated-union node the restructurer reads the
discriminant field, locates the wrapper entry for the selected
candidate, discards the wrapper key and splices its inner fields up to
merge with the sibling fields while the discriminant field is preserved
in the merged data; concretely, flattening
`{"letter": "A", "a": {"extra": "blah"}}` against the 3-way
discriminated ABC schema yields `{"letter": "A", "extra": "blah"}`. -/
theorem pydanticize_discriminator_flatten (dk dval : List Char)
    (choices : List (List Char × Schema)) (kvs inner : List (List Char × PyVal)) (cs : Schema)
    (hdk : lookupKey kvs dk = some (.str dval))
    (hch : choiceLookup choices dval = some cs)
    (hwrap : lookupPath kvs (wrapperPath dval) = some (.dict inner))
    (hne : dk ≠ (wrapperPath dval).headD []) :
    pydanticize (.dict kvs) (.union dk choices)
      = pydanticize (.dict (eraseKey kvs ((wrapperPath dval).headD []) ++ inner)) cs ∧
    lookupKey (eraseKey kvs ((wrapperPath dval).headD []) ++ inner) dk = some (.str dval) ∧
    pydanticize abcRawA abcSchema = abcFlatA := by
  have hm : mergedData kvs dval = eraseKey kvs ((wrapperPath dval).headD []) ++ inner := by
    simp [mergedData, hwrap]
  refine ⟨?_, ?_, ?_⟩
  · rw [pydanticize_union_str kvs dk dval choices hdk, pydChoices_eq kvs dval choices cs hch, hm]
  · have h1 : lookupKey (eraseKey kvs ((wrapperPath dval).headD [])) dk = some (.str dval) := by
      rw [lookupKey_eraseKey_ne kvs dk _ hne]
      exact hdk
    exact lookupKey_append_some _ _ _ _ h1
  · simp [abcRawA, abcKvs, abcInner, abcFlatA, abcSchema, abcChoices, abcCandidate,
      pydanticize, pydChoices, pydFields, pydList, lookupKey, lookupSplit, lookupSplitAux,
      lookupPath, eraseKey, mergedData, wrapperPath, splitUnderscore, splitUnderscoreAux,
      lowerStr]

/-- Witness for C5: the single-segment ABC fixture itself. -/
theorem pydanticize_discriminator_flatten_witness :
    pydanticize (.dict abcKvs) (.union "letter".toList abcChoices)
      = pydanticize
          (.dict (eraseKey abcKvs ((wrapperPath "A".toList).headD []) ++ abcInner))
          abcCandidate ∧
    lookupKey (eraseKey abcKvs ((wrapperPath "A".toList).headD []) ++ abcInner) "letter".toList
      = some (.str "A".toList) ∧
    pydanticize abcRawA abcSchema = abcFlatA :=
  pydanticize_discriminator_flatten "letter".toList "A".toList abcChoices abcKvs abcInner
    abcCandidate
    (by simp [abcKvs, lookupKey])
    (by simp [abcChoices, choiceLookup])
    (by simp [abcKvs, abcInner, wrapperPath, splitUnderscore, splitUnderscoreAux, lowerStr,
      lookupPath, lookupKey])
    (by decide)

/-- Every `init=True` attrs field reaches the produced model with its
public name, converted annotation and the spec derived from its
default. -/
theorem processFields_field_mem (env : TypeEnv) (fields : List AttrsField) (f : AttrsField)
    (hf : f ∈ fields) (hi : f.init = true) :
    (publicNameOf f, (convertAnn env f.ann).fst, specOf f.default)
      ∈ (processFields env fields).pydFieldList := by
  induction fields with
  | nil => cases hf
  | cons f0 rest ih =>
      rcases List.mem_cons.mp hf with hyp | hyp
      · subst hyp
        have : ¬(f.init = false) := by simp [hi]
        simp [processFields, this]
      · have hmem := ih hyp
        by_cases h0 : f0.init = false
        · simpa [processFields, h0] using hmem
        · simp [processFields, h0]
          exact Or.inr hmem

/-- The model-level `arbitrary_types_allowed` flag is set exactly when
some `init=True` field's annotation conversion failed. -/
theorem processFields_arbitrary_iff (env : TypeEnv) (fields : List AttrsField) :
    (processFields env fields).needArbitrary = true ↔
      ∃ g ∈ fields, g.init = true ∧ (convertAnn env g.ann).snd = true := by
  induction fields with
  | nil => simp [processFields, FieldAcc.empty]
  | cons f0 rest ih =>
      by_cases h0 : f0.init = false
      · have hproj : (processFields env (f0 :: rest)).needArbitrary
            = (processFields env rest).needArbitrary := by
          simp [processFields, h0]
        rw [hproj, ih]
        constructor
        · rintro ⟨g, hg, hgi, hgc⟩
          exact ⟨g, List.mem_cons_of_mem _ hg, hgi, hgc⟩
        · rintro ⟨g, hg, hgi, hgc⟩
          rcases List.mem_cons.mp hg with hyp | hyp
          · subst hyp
            rw [h0] at hgi
            cases hgi
          · exact ⟨g, hyp, hgi, hgc⟩
      · have h0' : f0.init = true := by revert h0; cases f0.init <;> simp
        have hproj : (processFields env (f0 :: rest)).needArbitrary
            = ((convertAnn env f0.ann).snd || (processFields env rest).needArbitrary) := by
          simp [processFields, h0]
        rw [hproj, Bool.or_eq_true, ih]
        constructor
        · rintro (hc | ⟨g, hg, hgi, hgc⟩)
          · exact ⟨f0, List.mem_cons_self f0 rest, h0', hc⟩
          · exact ⟨g, List.mem_cons_of_mem _ hg, hgi, hgc⟩
        · rintro ⟨g, hg, hgi, hgc⟩
          rcases List.mem_cons.mp hg with hyp | hyp
          · subst hyp
            exact Or.inl hgc
          · exact Or.inr ⟨g, hyp, hgi, hgc⟩

/-- The fields of the produced model are those accumulated by the
field-processing loop. -/
theorem upgrade_fields_eq (env : TypeEnv) (c : AttrsClass) :
    (AttrsPlugin.upgrade env c).fields = (processFields env c.fields).pydFieldList := rfl

/-- The accept-any flag of the produced model is the accumulated one. -/
theorem upgrade_arbitrary_eq (env : TypeEnv) (c : AttrsClass) :
    (AttrsPlugin.upgrade env c).arbitraryTypes = (processFields env c.fields).needArbitrary := rfl

/-- The mixin member names of the produced model are the names of the
members passing the inclusion filter. -/
theorem upgrade_mixin_eq (env : TypeEnv) (c : AttrsClass) :
    (AttrsPlugin.upgrade env c).mixinMembers =
      (c.members.filter
        (shouldIncludeMember ((processFields env c.fields).pydFieldList.map (·.1))
          (processFields env c.fields).attrsFieldNames
          (processFields env c.fields).privateSunderNames)).map (·.mname) := rfl

/-- C9: the bridge upgrades a foreign type only when it is not natively
supported (a supported type is returned unchanged); the produced model
preserves each field's default value, default factory and requiredness;
included non-field members are exactly those passing the member filter;
and when an annotation conversion fails, the model-level accept-any
fallback is enabled while the failed member keeps its original
annotation and every convertible member keeps its converted one. -/
theorem attrs_bridge_upgrade (env : TypeEnv) (t : PyType) (c : AttrsClass)
    (f : AttrsField) (m : Member)
    (ht : env.supported t = true) (hf : f ∈ c.fields) (hi : f.init = true)
    (hm : m ∈ c.members) :
    pydanticize_type env t = .ok t ∧
    (publicNameOf f, (convertAnn env f.ann).fst, specOf f.default)
      ∈ (AttrsPlugin.upgrade env c).fields ∧
    (f.default = .nothing →
      (publicNameOf f, (convertAnn env f.ann).fst, .required)
        ∈ (AttrsPlugin.upgrade env c).fields) ∧
    (∀ v, f.default = .value v →
      (publicNameOf f, (convertAnn env f.ann).fst, .defaultVal v)
        ∈ (AttrsPlugin.upgrade env c).fields) ∧
    (∀ fac, f.default = .factory fac →
      (publicNameOf f, (convertAnn env f.ann).fst, .defaultFactory fac)
        ∈ (AttrsPlugin.upgrade env c).fields) ∧
    (env.supported f.ann = true →
      (publicNameOf f, f.ann, specOf f.default) ∈ (AttrsPlugin.upgrade env c).fields) ∧
    ((convertAnn env f.ann).snd = true →
      (publicNameOf f, f.ann, specOf f.default) ∈ (AttrsPlugin.upgrade env c).fields ∧
      (AttrsPlugin.upgrade env c).arbitraryTypes = true) ∧
    ((AttrsPlugin.upgrade env c).arbitraryTypes = true ↔
      ∃ g ∈ c.fields, g.init = true ∧ (convertAnn env g.ann).snd = true) ∧
    (m.mname ∈ (AttrsPlugin.upgrade env c).mixinMembers ↔
      ∃ m2 ∈ c.members,
        shouldIncludeMember ((processFields env c.fields).pydFieldList.map (·.1))
          (processFields env c.fields).attrsFieldNames
          (processFields env c.fields).privateSunderNames m2 = true ∧
        m2.mname = m.mname) := by
  have hbase := processFields_field_mem env c.fields f hf hi
  have harb := processFields_arbitrary_iff env c.fields
  refine ⟨?_, ?_, ?_, ?_, ?_, ?_, ?_, ?_, ?_⟩
  · simp [pydanticize_type, ht]
  · rw [upgrade_fields_eq]
    exact hbase
  · intro hd
    rw [upgrade_fields_eq]
    rw [hd] at hbase
    simpa [specOf] using hbase
  · intro v hd
    rw [upgrade_fields_eq]
    rw [hd] at hbase
    simpa [specOf] using hbase
  · intro fac hd
    rw [upgrade_fields_eq]
    rw [hd] at hbase
    simpa [specOf] using hbase
  · intro hsup
    rw [upgrade_fields_eq]
    have hann : (convertAnn env f.ann).fst = f.ann := by simp [convertAnn, hsup]
    rw [hann] at hbase
    exact hbase
  · intro hfail
    have hkeep : (convertAnn env f.ann).fst = f.ann := by
      by_cases hsup : env.supported f.ann = true
      · simp [convertAnn, hsup] at hfail
      · cases hpt : pydanticize_type env f.ann with
        | ok u => simp [convertAnn, hsup, hpt] at hfail
        | error er => simp [convertAnn, hsup, hpt]
    constructor
    · rw [upgrade_fields_eq]
      rw [hkeep] at hbase
      exact hbase
    · rw [upgrade_arbitrary_eq]
      exact harb.mpr ⟨f, hf, hi, hfail⟩
  · rw [upgrade_arbitrary_eq]
    exact harb
  · rw [upgrade_mixin_eq]
    simp only [List.mem_map, List.mem_filter]
    constructor
    · rintro ⟨m2, ⟨hm2, hinc⟩, hname⟩
      exact ⟨m2, hm2, hinc, hname⟩
    · rintro ⟨m2, hm2, hinc, hname⟩
      exact ⟨m2, ⟨hm2, hinc⟩, hname⟩

/-- Witness for C9: the attrs test class with a required, a defaulted
and a factory field, a method member, and a fully supported
environment. -/
theorem attrs_bridge_upgrade_witness :
    pydanticize_type allSupportedEnv ⟨"int".toList⟩ = .ok ⟨"int".toList⟩ ∧
    (publicNameOf attrsFieldZ, (convertAnn allSupportedEnv attrsFieldZ.ann).fst,
        specOf attrsFieldZ.default)
      ∈ (AttrsPlugin.upgrade allSupportedEnv attrsClassA).fields ∧
    (attrsFieldZ.default = .nothing →
      (publicNameOf attrsFieldZ, (convertAnn allSupportedEnv attrsFieldZ.ann).fst, .required)
        ∈ (AttrsPlugin.upgrade allSupportedEnv attrsClassA).fields) ∧
    (∀ v, attrsFieldZ.default = .value v →
      (publicNameOf attrsFieldZ, (convertAnn allSupportedEnv attrsFieldZ.ann).fst, .defaultVal v)
        ∈ (AttrsPlugin.upgrade allSupportedEnv attrsClassA).fields) ∧
    (∀ fac, attrsFieldZ.default = .factory fac →
      (publicNameOf attrsFieldZ, (convertAnn allSupportedEnv attrsFieldZ.ann).fst,
          .defaultFactory fac)
        ∈ (AttrsPlugin.upgrade allSupportedEnv attrsClassA).fields) ∧
    (allSupportedEnv.supported attrsFieldZ.ann = true →
      (publicNameOf attrsFieldZ, attrsFieldZ.ann, specOf attrsFieldZ.default)
        ∈ (AttrsPlugin.upgrade allSupportedEnv attrsClassA).fields) ∧
    ((convertAnn allSupportedEnv attrsFieldZ.ann).snd = true →
      (publicNameOf attrsFieldZ, attrsFieldZ.ann, specOf attrsFieldZ.default)
        ∈ (AttrsPlugin.upgrade allSupportedEnv attrsClassA).fields ∧
      (AttrsPlugin.upgrade allSupportedEnv attrsClassA).arbitraryTypes = true) ∧
    ((AttrsPlugin.upgrade allSupportedEnv attrsClassA).arbitraryTypes = true ↔
      ∃ g ∈ attrsClassA.fields, g.init = true ∧
        (convertAnn allSupportedEnv g.ann).snd = true) ∧
    (attrsMemberTotal.mname ∈ (AttrsPlugin.upgrade allSupportedEnv attrsClassA).mixinMembers ↔
      ∃ m2 ∈ attrsClassA.members,
        shouldIncludeMember
          ((processFields allSupportedEnv attrsClassA.fields).pydFieldList.map (·.1))
          (processFields allSupportedEnv attrsClassA.fields).attrsFieldNames
          (processFields allSupportedEnv attrsClassA.fields).privateSunderNames m2 = true ∧
        m2.mname = attrsMemberTotal.mname) :=
  attrs_bridge_upgrade allSupportedEnv ⟨"int".toList⟩ attrsClassA attrsFieldZ attrsMemberTotal
    rfl (by simp [attrsClassA]) rfl (by simp [attrsClassA])

/-- The empty string occurs in every string. -/
theorem substrOf_nil (t : List Char) : substrOf [] t = true := by
  cases t with
  | nil => simp [substrOf]
  | cons b t2 => simp [substrOf, listStarts]

/-- A prefix occurrence pins down the text's prefix. -/
theorem listStarts_take_eq (p t : List Char) (h : listStarts p t = true) :
    t.take p.length = p ∧ p.length ≤ t.length := by
  induction p generalizing t with
  | nil => simp
  | cons a p ih =>
      cases t with
      | nil => simp [listStarts] at h
      | cons b t2 =>
          simp [listStarts] at h
          obtain ⟨hab, hstarts⟩ := h
          obtain ⟨htake, hlen⟩ := ih t2 hstarts
          subst hab
          simp [htake, Nat.succ_le_succ hlen]

/-- Every taken prefix is a prefix occurrence. -/
theorem listStarts_take (t : List Char) (n : Nat) : listStarts (t.take n) t = true := by
  induction t generalizing n with
  | nil => simp [listStarts]
  | cons b t2 ih =>
      cases n with
      | zero => simp [listStarts]
      | succ n => simp [listStarts, ih n]

/-- A prefix occurrence after dropping is a substring occurrence. -/
theorem substrOf_of_starts_drop (p t : List Char) (i : Nat)
    (h : listStarts p (t.drop i) = true) : substrOf p t = true := by
  induction i generalizing t with
  | zero => simpa using substrOf_of_listStarts p t (by simpa using h)
  | succ i ih =>
      cases t with
      | nil =>
          cases p with
          | nil => simp [substrOf]
          | cons a p => simp [listStarts] at h
      | cons b t2 =>
          have := ih t2 (by simpa using h)
          simp [substrOf, this]

/-- A substring occurrence yields a position at which the substring is
the taken part of the dropped text. -/
theorem substrOf_position (p t : List Char) (h : substrOf p t = true) :
    ∃ i, i + p.length ≤ t.length ∧ (t.drop i).take p.length = p := by
  induction t with
  | nil =>
      have : p = [] := by
        cases p with
        | nil => rfl
        | cons a q => simp [substrOf] at h
      subst this
      exact ⟨0, by simp, by simp⟩
  | cons b t2 ih =>
      rw [substrOf, Bool.or_eq_true] at h
      rcases h with h | h
      · obtain ⟨htake, hlen⟩ := listStarts_take_eq p (b :: t2) h
        exact ⟨0, by simpa using hlen, by simpa using htake⟩
      · obtain ⟨i, hle, htake⟩ := ih h
        exact ⟨i + 1, by simp; omega, by simpa using htake⟩

/-- Soundness of the position scan: a found candidate is a substring of
`h` taken at one of the scanned positions and occurs in every other
name. -/
theorem firstCommonAux_sound (h : List Char) (others : List (List Char)) (len : Nat)
    (is : List Nat) (s : List Char)
    (hfind : firstCommonAux h others len is = some s) :
    ∃ i ∈ is, s = (h.drop i).take len ∧ ∀ n ∈ others, substrOf s n = true := by
  induction is with
  | nil => simp [firstCommonAux] at hfind
  | cons j is2 ih =>
      by_cases hc : others.all (fun n => substrOf ((h.drop j).take len) n) = true
      · rw [firstCommonAux, if_pos hc] at hfind
        cases hfind
        refine ⟨j, List.mem_cons_self j is2, rfl, ?_⟩
        intro n hn
        exact List.all_eq_true.mp hc n hn
      · rw [firstCommonAux, if_neg hc] at hfind
        obtain ⟨i, hi, hs, hall⟩ := ih hfind
        exact ⟨i, List.mem_cons_of_mem _ hi, hs, hall⟩

/-- Completeness of the position scan: when some scanned position
carries a candidate common to all other names, the scan succeeds. -/
theorem firstCommonAux_complete (h : List Char) (others : List (List Char)) (len : Nat)
    (is : List Nat) (i : Nat) (hi : i ∈ is)
    (hall : ∀ n ∈ others, substrOf ((h.drop i).take len) n = true) :
    ∃ s, firstCommonAux h others len is = some s := by
  induction is with
  | nil => cases hi
  | cons j is2 ih =>
      by_cases hc : others.all (fun n => substrOf ((h.drop j).take len) n) = true
      · exact ⟨(h.drop j).take len, by rw [firstCommonAux, if_pos hc]⟩
      · rcases List.mem_cons.mp hi with hyp | hyp
        · subst hyp
          exact absurd (List.all_eq_true.mpr hall) hc
        · obtain ⟨s, hs⟩ := ih hyp
          exact ⟨s, by rw [firstCommonAux, if_neg hc]; exact hs⟩

/-- A successful length search returns a common substring of exactly
that length. -/
theorem firstCommonOfLength_sound (h : List Char) (others : List (List Char)) (len : Nat)
    (s : List Char) (hfind : firstCommonOfLength h others len = some s) :
    substrOf s h = true ∧ (∀ n ∈ others, substrOf s n = true) ∧ s.length = len := by
  obtain ⟨i, hi, hs, hall⟩ := firstCommonAux_sound h others len _ s hfind
  have hilt : i < h.length + 1 - len := List.mem_range.mp hi
  have hbound : i + len ≤ h.length := by omega
  refine ⟨?_, ?_, ?_⟩
  · rw [hs]
    exact substrOf_of_starts_drop _ h i (listStarts_take (h.drop i) len)
  · intro n hn
    exact hall n hn
  · rw [hs]
    simp [List.length_take, List.length_drop]
    omega

/-- When a common substring of the requested length exists at all, the
length search succeeds. -/
theorem firstCommonOfLength_complete (h : List Char) (others : List (List Char))
    (s0 : List Char)
    (hh : substrOf s0 h = true) (hall : ∀ n ∈ others, substrOf s0 n = true) :
    ∃ s, firstCommonOfLength h others s0.length = some s := by
  obtain ⟨i, hle, htake⟩ := substrOf_position s0 h hh
  have hi : i ∈ List.range (h.length + 1 - s0.length) := by
    rw [List.mem_range]
    omega
  refine firstCommonAux_complete h others s0.length _ i hi ?_
  intro n hn
  rw [htake]
  exact hall n hn

/-- The descending length search always succeeds and returns a common
substring that is at least as long as every common substring of length
at most the search bound. -/
theorem tniAux_spec (h : List Char) (others : List (List Char)) (len : Nat) :
    ∃ r, tniAux h others len = some r ∧
      substrOf r h = true ∧ (∀ n ∈ others, substrOf r n = true) ∧
      (∀ s, substrOf s h = true → (∀ n ∈ others, substrOf s n = true) →
        s.length ≤ len → s.length ≤ r.length) := by
  induction len with
  | zero =>
      obtain ⟨s, hs⟩ :=
        firstCommonOfLength_complete h others [] (substrOf_nil h)
          (fun n _ => substrOf_nil n)
      obtain ⟨h1, h2, h3⟩ := firstCommonOfLength_sound h others 0 s (by simpa using hs)
      exact ⟨s, by simpa [tniAux] using hs, h1, h2, fun s2 _ _ hlen => by omega⟩
  | succ len ih =>
      cases hfc : firstCommonOfLength h others (len + 1) with
      | some s =>
          obtain ⟨h1, h2, h3⟩ := firstCommonOfLength_sound h others (len + 1) s hfc
          refine ⟨s, by simp [tniAux, hfc], h1, h2, ?_⟩
          intro s2 _ _ hlen
          omega
      | none =>
          obtain ⟨r, hr, h1, h2, hmax⟩ := ih
          refine ⟨r, by simp [tniAux, hfc, hr], h1, h2, ?_⟩
          intro s2 hs2h hs2all hlen
          by_cases heq : s2.length = len + 1
          · obtain ⟨s3, hs3⟩ := firstCommonOfLength_complete h others s2 hs2h hs2all
            rw [heq] at hs3
            rw [hfc] at hs3
            cases hs3
          · exact hmax s2 hs2h hs2all (by omega)

/-- C8: for a non-empty collection of candidate type names the computed
alias is a longest common contiguous substring shared by all names;
concretely the alias of `DummyStoreA, DummyStorage, DummyStoreB` is
`DummyStor`, and when no non-empty common substring exists (as for
`JustC, XabcY, ZabcW`) the alias computation fails with an error. -/
theorem alias_longest_common_substring (names : List (List Char)) (h : List Char)
    (t : List (List Char)) (hne : names = h :: t) :
    (∀ n ∈ names, substrOf (type_name_intersection names) n = true) ∧
    (∀ s, (∀ n ∈ names, substrOf s n = true) →
      s.length ≤ (type_name_intersection names).length) ∧
    (∀ ns, type_name_intersection ns = [] → ∃ e, alias_name ns = .error e) ∧
    type_name_intersection ["DummyStoreA".toList, "DummyStorage".toList, "DummyStoreB".toList]
      = "DummyStor".toList ∧
    alias_name ["DummyStoreA".toList, "DummyStorage".toList, "DummyStoreB".toList]
      = .ok "DummyStor".toList ∧
    type_name_intersection ["JustC".toList, "XabcY".toList, "ZabcW".toList] = [] ∧
    (∃ e, alias_name ["JustC".toList, "XabcY".toList, "ZabcW".toList] = .error e) := by
  subst hne
  obtain ⟨r, hr, h1, h2, hmax⟩ := tniAux_spec h t h.length
  have htni : type_name_intersection (h :: t) = r := by
    simp [type_name_intersection, hr]
  refine ⟨?_, ?_, ?_, ?_, ?_, ?_, ?_⟩
  · intro n hn
    rw [htni]
    rcases List.mem_cons.mp hn with hyp | hyp
    · subst hyp
      exact h1
    · exact h2 n hyp
  · intro s hs
    rw [htni]
    have hsh : substrOf s h = true := hs h (List.mem_cons_self h t)
    obtain ⟨i, hle, _⟩ := substrOf_position s h hsh
    exact hmax s hsh (fun n hn => hs n (List.mem_cons_of_mem _ hn)) (by omega)
  · intro ns hns
    refine ⟨.mk "ValueError".toList
      "Unable to create an alias for types. Ensure there is a naming overlap between each of the types.".toList
      Option.none, ?_⟩
    simp [alias_name, hns]
  · rfl
  · rfl
  · rfl
  · exact ⟨_, rfl⟩

/-- Witness for C8: the `DummyStore` fixture names. -/
theorem alias_longest_common_substring_witness :
    (∀ n ∈ ["DummyStoreA".toList, "DummyStorage".toList, "DummyStoreB".toList],
      substrOf
        (type_name_intersection
          ["DummyStoreA".toList, "DummyStorage".toList, "DummyStoreB".toList]) n = true) ∧
    (∀ s, (∀ n ∈ ["DummyStoreA".toList, "DummyStorage".toList, "DummyStoreB".toList],
        substrOf s n = true) →
      s.length ≤
        (type_name_intersection
          ["DummyStoreA".toList, "DummyStorage".toList, "DummyStoreB".toList]).length) ∧
    (∀ ns, type_name_intersection ns = [] → ∃ e, alias_name ns = .error e) ∧
    type_name_intersection ["DummyStoreA".toList, "DummyStorage".toList, "DummyStoreB".toList]
      = "DummyStor".toList ∧
    alias_name ["DummyStoreA".toList, "DummyStorage".toList, "DummyStoreB".toList]
      = .ok "DummyStor".toList ∧
    type_name_intersection ["JustC".toList, "XabcY".toList, "ZabcW".toList] = [] ∧
    (∃ e, alias_name ["JustC".toList, "XabcY".toList, "ZabcW".toList] = .error e) :=
  alias_longest_common_substring
    ["DummyStoreA".toList, "DummyStorage".toList, "DummyStoreB".toList]
    "DummyStoreA".toList ["DummyStorage".toList, "DummyStoreB".toList] rfl

/-- Lookup of an absent key fails. -/
theorem lookupKey_none_of_not_mem (l : List (List Char × PyVal)) (k : List Char)
    (h : ¬ k ∈ l.map Prod.fst) : lookupKey l k = Option.none := by
  induction l with
  | nil => simp [lookupKey]
  | cons kv rest ih =>
      obtain ⟨k0, v0⟩ := kv
      have h1 : ¬ (k0 = k) := by
        intro hc
        subst hc
        exact h (List.mem_cons_self _ _)
      have h2 : ¬ k ∈ rest.map Prod.fst := by
        intro hc
        exact h (List.mem_cons_of_mem _ hc)
      rw [lookupKey, if_neg h1]
      exact ih h2

/-- A direct hit makes the underscore-aware lookup return it. -/
theorem lookupSplit_direct (kvs : List (List Char × PyVal)) (f : List Char) (v : PyVal)
    (h : lookupKey kvs f = some v) : lookupSplit kvs f = some v := by
  rw [lookupSplit, h]

/-- Restructuring a dict against a model whose fields are all found
produces exactly the fields' names, in schema order. -/
theorem pydFields_keys (fields : List (List Char × Schema)) (kvs : List (List Char × PyVal))
    (hwf : wfFields kvs fields = true) :
    (pydFields kvs fields).map Prod.fst = fields.map Prod.fst := by
  induction fields with
  | nil => simp [pydFields]
  | cons p rest ih =>
      obtain ⟨f, fs⟩ := p
      rw [wfFields] at hwf
      cases hlk : lookupSplit kvs f with
      | none => rw [hlk] at hwf; cases hwf
      | some v =>
          rw [hlk, Bool.and_eq_true] at hwf
          rw [pydFields, hlk, List.map_cons, List.map_cons, ih hwf.2]

/-- Restructuring a restructured dict against the same model leaves it
unchanged, also in the presence of extra entries in front whose keys are
not field names. -/
theorem pydFields_stable (fields : List (List Char × Schema)) (kvs : List (List Char × PyVal))
    (extra : List (List Char × PyVal))
    (hIH : ∀ p ∈ fields, ∀ v, wfVal v p.snd = true →
      pydanticize (pydanticize v p.snd) p.snd = pydanticize v p.snd)
    (hdst : distinctKeys (fields.map Prod.fst) = true)
    (hwf : wfFields kvs fields = true)
    (hex : ∀ k ∈ extra.map Prod.fst, ¬ k ∈ fields.map Prod.fst) :
    pydFields (extra ++ pydFields kvs fields) fields = pydFields kvs fields := by
  induction fields generalizing extra with
  | nil => simp [pydFields]
  | cons p rest ih =>
      obtain ⟨f, fs⟩ := p
      rw [wfFields] at hwf
      cases hlk : lookupSplit kvs f with
      | none => rw [hlk] at hwf; cases hwf
      | some v =>
          rw [hlk, Bool.and_eq_true] at hwf
          obtain ⟨hv, hrest⟩ := hwf
          have hdst2 : distinctKeys (f :: rest.map Prod.fst) = true := hdst
          rw [distinctKeys, Bool.and_eq_true, decide_eq_true_eq] at hdst2
          obtain ⟨hfd, hdrest⟩ := hdst2
          have hfx : ¬ f ∈ extra.map Prod.fst := by
            intro hc
            exact hex f hc (List.mem_cons_self _ _)
          have hRHS : pydFields kvs ((f, fs) :: rest)
              = (f, pydanticize v fs) :: pydFields kvs rest := by
            rw [pydFields, hlk]
          have hlk2 : lookupKey (extra ++ (f, pydanticize v fs) :: pydFields kvs rest) f
              = some (pydanticize v fs) := by
            rw [lookupKey_append_none _ _ _ (lookupKey_none_of_not_mem extra f hfx)]
            simp [lookupKey]
          have hLHS : pydFields (extra ++ (f, pydanticize v fs) :: pydFields kvs rest)
                ((f, fs) :: rest)
              = (f, pydanticize (pydanticize v fs) fs)
                :: pydFields (extra ++ (f, pydanticize v fs) :: pydFields kvs rest) rest := by
            rw [pydFields, lookupSplit_direct _ _ _ hlk2]
          have hhead : pydanticize (pydanticize v fs) fs = pydanticize v fs :=
            hIH (f, fs) (List.mem_cons_self _ _) v hv
          have htail : pydFields (extra ++ (f, pydanticize v fs) :: pydFields kvs rest) rest
              = pydFields kvs rest := by
            have hsplit : extra ++ (f, pydanticize v fs) :: pydFields kvs rest
                = (extra ++ [(f, pydanticize v fs)]) ++ pydFields kvs rest := by
              simp
            rw [hsplit]
            refine ih (extra ++ [(f, pydanticize v fs)])
              (fun p2 hp2 v2 hv2 => hIH p2 (List.mem_cons_of_mem _ hp2) v2 hv2)
              hdrest hrest ?_
            intro k hk
            rw [List.map_append] at hk
            rcases List.mem_append.mp hk with hk | hk
            · intro hc
              exact hex k hk (List.mem_cons_of_mem _ hc)
            · have hkf : k = f := List.mem_singleton.mp hk
              rw [hkf]
              exact hfd
          rw [hRHS, hLHS, hhead, htail]

/-- A successful choice lookup comes from a member of the choices. -/
theorem choiceLookup_mem (choices : List (List Char × Schema)) (dval : List Char) (cs : Schema)
    (h : choiceLookup choices dval = some cs) : ∃ dv, (dv, cs) ∈ choices := by
  induction choices with
  | nil => simp [choiceLookup] at h
  | cons c rest ih =>
      obtain ⟨dv0, cs0⟩ := c
      by_cases hdv : dv0 = dval
      · rw [choiceLookup, if_pos hdv] at h
        cases h
        exact ⟨dv0, by simp⟩
      · rw [choiceLookup, if_neg hdv] at h
        obtain ⟨dv, hdvm⟩ := ih h
        exact ⟨dv, List.mem_cons_of_mem _ hdvm⟩

/-- A non-matching choice is skipped by the union well-formedness
walk. -/
theorem wfChoices_cons_ne (kvs : List (List Char × PyVal)) (dk dval dv0 : List Char)
    (cs0 : Schema) (rest : List (List Char × Schema)) (h : ¬ dv0 = dval) :
    wfChoices kvs dk dval ((dv0, cs0) :: rest) = wfChoices kvs dk dval rest := by
  cases cs0 with
  | model cf => rw [wfChoices, if_neg h]
  | any =>
      rw [wfChoices, if_neg h]
      intro cf heq
      exact Schema.noConfusion heq
  | scalar =>
      rw [wfChoices, if_neg h]
      intro cf heq
      exact Schema.noConfusion heq
  | nullable s1 =>
      rw [wfChoices, if_neg h]
      intro cf heq
      exact Schema.noConfusion heq
  | listOf s1 =>
      rw [wfChoices, if_neg h]
      intro cf heq
      exact Schema.noConfusion heq
  | union dk2 ch2 =>
      rw [wfChoices, if_neg h]
      intro cf heq
      exact Schema.noConfusion heq

/-- Well-formedness at a union node, characterized through the
first-match choice lookup: either no candidate matches, or the matching
candidate is a model shape whose spliced data is well-formed and whose
restructured result again exposes the discriminant and hides the
wrapper. -/
theorem wfChoices_spec (choices : List (List Char × Schema))
    (kvs : List (List Char × PyVal)) (dk dval : List Char)
    (hwf : wfChoices kvs dk dval choices = true) :
    choiceLookup choices dval = Option.none ∨
    ∃ cfields, choiceLookup choices dval = some (.model cfields) ∧
      wfVal (.dict (mergedData kvs dval)) (.model cfields) = true ∧
      lookupKey (pydFields (mergedData kvs dval) cfields) dk = some (.str dval) ∧
      ∀ i2, ¬ lookupPath (pydFields (mergedData kvs dval) cfields) (wrapperPath dval)
        = some (.dict i2) := by
  induction choices with
  | nil => exact Or.inl rfl
  | cons c rest ih =>
      obtain ⟨dv0, cs0⟩ := c
      by_cases hdv : dv0 = dval
      · cases cs0 with
        | model cfields =>
            have hcand : wfUnionCandidate kvs dk dval cfields = true := by
              rw [wfChoices, if_pos hdv] at hwf
              exact hwf
            rw [wfUnionCandidate, Bool.and_eq_true, Bool.and_eq_true] at hcand
            obtain ⟨⟨h1, h2⟩, h3⟩ := hcand
            refine Or.inr ⟨cfields, by rw [choiceLookup, if_pos hdv], h1, ?_, ?_⟩
            · revert h2
              cases hlk : lookupKey (pydFields (mergedData kvs dval) cfields) dk with
              | none => intro h2; cases h2
              | some w =>
                  cases w with
                  | str d2 =>
                      intro h2
                      rw [decide_eq_true_eq] at h2
                      rw [h2]
                  | none => intro h2; cases h2
                  | bool b => intro h2; cases h2
                  | int n => intro h2; cases h2
                  | list xs => intro h2; cases h2
                  | dict kvs2 => intro h2; cases h2
            · intro i2 hc
              rw [hc] at h3
              cases h3
        | any =>
            rw [wfChoices, if_pos hdv] at hwf
            · exact Bool.noConfusion hwf
            · intro cfields heq
              exact Schema.noConfusion heq
        | scalar =>
            rw [wfChoices, if_pos hdv] at hwf
            · exact Bool.noConfusion hwf
            · intro cfields heq
              exact Schema.noConfusion heq
        | nullable s1 =>
            rw [wfChoices, if_pos hdv] at hwf
            · exact Bool.noConfusion hwf
            · intro cfields heq
              exact Schema.noConfusion heq
        | listOf s1 =>
            rw [wfChoices, if_pos hdv] at hwf
            · exact Bool.noConfusion hwf
            · intro cfields heq
              exact Schema.noConfusion heq
        | union dk2 ch2 =>
            rw [wfChoices, if_pos hdv] at hwf
            · exact Bool.noConfusion hwf
            · intro cfields heq
              exact Schema.noConfusion heq
      · rw [wfChoices_cons_ne kvs dk dval dv0 cs0 rest hdv] at hwf
        have := ih hwf
        rcases this with hc | ⟨cfields, hcl, hrest⟩
        · exact Or.inl (by rw [choiceLookup, if_neg hdv]; exact hc)
        · exact Or.inr ⟨cfields, by rw [choiceLookup, if_neg hdv]; exact hcl, hrest⟩

/-- Idempotence of the restructurer on well-formed data, by strong
induction on the size of the schema. -/
theorem pyd_idem_bounded (N : Nat) :
    ∀ s : Schema, sizeOf s < N → ∀ v, wfVal v s = true →
      pydanticize (pydanticize v s) s = pydanticize v s := by
  induction N with
  | zero =>
      intro s hs
      omega
  | succ N ih =>
      intro s hs v hwf
      cases s with
      | any => simp [pydanticize]
      | scalar => simp [pydanticize]
      | nullable s1 =>
          have hs1 : sizeOf s1 < N := by
            simp at hs
            omega
          by_cases hv : v = PyVal.none
          · subst hv
            simp [pydanticize]
          · have h1 : pydanticize v (.nullable s1) = pydanticize v s1 := by
              cases v with
              | none => exact absurd rfl hv
              | bool b => simp [pydanticize]
              | int n => simp [pydanticize]
              | str s2 => simp [pydanticize]
              | list xs => simp [pydanticize]
              | dict kvs => simp [pydanticize]
            have hwf1 : wfVal v s1 = true := by
              cases v with
              | none => exact absurd rfl hv
              | bool b => simpa [wfVal] using hwf
              | int n => simpa [wfVal] using hwf
              | str s2 => simpa [wfVal] using hwf
              | list xs => simpa [wfVal] using hwf
              | dict kvs => simpa [wfVal] using hwf
            rw [h1]
            by_cases hr : pydanticize v s1 = PyVal.none
            · rw [hr]
              simp [pydanticize]
            · have h2 : pydanticize (pydanticize v s1) (.nullable s1)
                  = pydanticize (pydanticize v s1) s1 := by
                cases hrv : pydanticize v s1 with
                | none => exact absurd hrv hr
                | bool b => simp [pydanticize]
                | int n => simp [pydanticize]
                | str s2 => simp [pydanticize]
                | list xs => simp [pydanticize]
                | dict kvs => simp [pydanticize]
              rw [h2]
              exact ih s1 hs1 v hwf1
      | listOf s1 =>
          have hs1 : sizeOf s1 < N := by
            simp at hs
            omega
          cases v with
          | list xs =>
              have hxs : wfList xs s1 = true := by simpa [wfVal] using hwf
              have hmap : ∀ ys, wfList ys s1 = true →
                  pydList (pydList ys s1) s1 = pydList ys s1 := by
                intro ys
                induction ys with
                | nil =>
                    intro _
                    simp [pydList]
                | cons y ys2 ihy =>
                    intro hwl
                    rw [wfList, Bool.and_eq_true] at hwl
                    have hinner : pydList (y :: ys2) s1 = pydanticize y s1 :: pydList ys2 s1 := by
                      rw [pydList]
                    rw [hinner, pydList, ih s1 hs1 y hwl.1, ihy hwl.2]
              have hgoal := hmap xs hxs
              simp [pydanticize]
              exact hgoal
          | none => simp [pydanticize]
          | bool b => simp [pydanticize]
          | int n => simp [pydanticize]
          | str s2 => simp [pydanticize]
          | dict kvs => simp [pydanticize]
      | model fields =>
          cases v with
          | dict kvs =>
              have hwf2 : distinctKeys (fields.map Prod.fst) = true ∧
                  wfFields kvs fields = true := by
                simpa [wfVal, Bool.and_eq_true] using hwf
              have hIH : ∀ p ∈ fields, ∀ v2, wfVal v2 p.snd = true →
                  pydanticize (pydanticize v2 p.snd) p.snd = pydanticize v2 p.snd := by
                intro p hp v2 hv2
                have h1 : sizeOf p < sizeOf fields := List.sizeOf_lt_of_mem hp
                have h2 : sizeOf p.snd < sizeOf p := by
                  obtain ⟨a, b⟩ := p
                  simp
                refine ih p.snd ?_ v2 hv2
                simp at hs
                omega
              have hstab := pydFields_stable fields kvs [] hIH hwf2.1 hwf2.2
                (by intro k hk; simp at hk)
              simp [pydanticize]
              simpa using hstab
          | none => simp [pydanticize]
          | bool b => simp [pydanticize]
          | int n => simp [pydanticize]
          | str s2 => simp [pydanticize]
          | list xs => simp [pydanticize]
      | union dk choices =>
          cases v with
          | dict kvs =>
              cases hdk : lookupKey kvs dk with
              | none =>
                  have hstep : pydanticize (.dict kvs) (.union dk choices) = .dict kvs := by
                    simp [pydanticize, hdk]
                  rw [hstep]
                  exact hstep
              | some w =>
                  cases w with
                  | str dval =>
                      have hwfc : wfChoices kvs dk dval choices = true := by
                        simpa [wfVal, hdk] using hwf
                      have hfirst : pydanticize (.dict kvs) (.union dk choices)
                          = pydChoices kvs dval choices :=
                        pydanticize_union_str kvs dk dval choices hdk
                      rcases wfChoices_spec choices kvs dk dval hwfc with
                        hnone | ⟨cfields, hcl, hwfm, hdisc, hpath⟩
                      · have h1 : pydChoices kvs dval choices = .dict kvs :=
                          pydChoices_none kvs dval choices hnone
                        rw [hfirst, h1, hfirst]
                        exact h1
                      · have h1 : pydChoices kvs dval choices
                            = pydanticize (.dict (mergedData kvs dval)) (.model cfields) :=
                          pydChoices_eq kvs dval choices (.model cfields) hcl
                        have h2 : pydanticize (.dict (mergedData kvs dval)) (.model cfields)
                            = .dict (pydFields (mergedData kvs dval) cfields) := by
                          simp [pydanticize]
                        have hwfm2 : distinctKeys (cfields.map Prod.fst) = true ∧
                            wfFields (mergedData kvs dval) cfields = true := by
                          simpa [wfVal, Bool.and_eq_true] using hwfm
                        have hcsize : sizeOf (Schema.model cfields) < N := by
                          obtain ⟨dv2, hmem⟩ := choiceLookup_mem choices dval (.model cfields) hcl
                          have hm1 : sizeOf (dv2, Schema.model cfields) < sizeOf choices :=
                            List.sizeOf_lt_of_mem hmem
                          have hm2 : sizeOf (Schema.model cfields)
                              < sizeOf (dv2, Schema.model cfields) := by
                            simp
                          simp at hs
                          omega
                        have hIH : ∀ p ∈ cfields, ∀ v2, wfVal v2 p.snd = true →
                            pydanticize (pydanticize v2 p.snd) p.snd = pydanticize v2 p.snd := by
                          intro p hp v2 hv2
                          have h1' : sizeOf p < sizeOf cfields := List.sizeOf_lt_of_mem hp
                          have h2' : sizeOf p.snd < sizeOf p := by
                            obtain ⟨a, b⟩ := p
                            simp
                          refine ih p.snd ?_ v2 hv2
                          have h3' : sizeOf (Schema.model cfields) = 1 + sizeOf cfields := by
                            simp
                          omega
                        have hstab := pydFields_stable cfields (mergedData kvs dval) [] hIH
                          hwfm2.1 hwfm2.2 (by intro k hk; simp at hk)
                        have hdk2 : lookupKey (pydFields (mergedData kvs dval) cfields) dk
                            = some (.str dval) := hdisc
                        have hsecond : pydanticize
                              (.dict (pydFields (mergedData kvs dval) cfields))
                              (.union dk choices)
                            = pydChoices (pydFields (mergedData kvs dval) cfields) dval choices :=
                          pydanticize_union_str _ dk dval choices hdk2
                        have h3 : pydChoices (pydFields (mergedData kvs dval) cfields) dval choices
                            = pydanticize
                                (.dict (mergedData (pydFields (mergedData kvs dval) cfields) dval))
                                (.model cfields) :=
                          pydChoices_eq _ dval choices (.model cfields) hcl
                        have hm3 : mergedData (pydFields (mergedData kvs dval) cfields) dval
                            = pydFields (mergedData kvs dval) cfields := by
                          rw [mergedData]
                          cases hlp : lookupPath (pydFields (mergedData kvs dval) cfields)
                              (wrapperPath dval) with
                          | none => rfl
                          | some p =>
                              cases p with
                              | dict i2 => exact absurd hlp (hpath i2)
                              | none => rfl
                              | bool b => rfl
                              | int n => rfl
                              | str s2 => rfl
                              | list xs => rfl
                        have h4 : pydanticize (.dict (pydFields (mergedData kvs dval) cfields))
                              (.model cfields)
                            = .dict (pydFields (pydFields (mergedData kvs dval) cfields) cfields) := by
                          simp [pydanticize]
                        rw [hfirst, h1, h2, hsecond, h3, hm3, h4]
                        have hstab2 : pydFields (pydFields (mergedData kvs dval) cfields) cfields
                            = pydFields (mergedData kvs dval) cfields := by
                          simpa using hstab
                        rw [hstab2]
                  | none =>
                      have hstep : pydanticize (.dict kvs) (.union dk choices) = .dict kvs := by
                        simp [pydanticize, hdk]
                      rw [hstep]
                      exact hstep
                  | bool b =>
                      have hstep : pydanticize (.dict kvs) (.union dk choices) = .dict kvs := by
                        simp [pydanticize, hdk]
                      rw [hstep]
                      exact hstep
                  | int n =>
                      have hstep : pydanticize (.dict kvs) (.union dk choices) = .dict kvs := by
                        simp [pydanticize, hdk]
                      rw [hstep]
                      exact hstep
                  | list xs =>
                      have hstep : pydanticize (.dict kvs) (.union dk choices) = .dict kvs := by
                        simp [pydanticize, hdk]
                      rw [hstep]
                      exact hstep
                  | dict kvs2 =>
                      have hstep : pydanticize (.dict kvs) (.union dk choices) = .dict kvs := by
                        simp [pydanticize, hdk]
                      rw [hstep]
                      exact hstep
          | none => simp [pydanticize]
          | bool b => simp [pydanticize]
          | int n => simp [pydanticize]
          | str s2 => simp [pydanticize]
          | list xs => simp [pydanticize]

/-- C6: restructuring is idempotent on structurally well-formed data —
`restructure(restructure(x, S), S) = restructure(x, S)` — and applying
the restructurer to the already-flat fixture returns it unchanged. -/
theorem pydanticize_idempotent (v : PyVal) (s : Schema) (hwf : wfVal v s = true) :
    pydanticize (pydanticize v s) s = pydanticize v s ∧
    pydanticize abcFlatA abcCandidate = abcFlatA :=
  ⟨pyd_idem_bounded (sizeOf s + 1) s (by omega) v hwf,
   by simp [abcFlatA, abcCandidate, pydanticize, pydFields, lookupSplit, lookupKey]⟩

/-- Witness for C6: idempotence at the flat `A` fixture. -/
theorem pydanticize_idempotent_witness :
    pydanticize (pydanticize abcFlatA abcCandidate) abcCandidate
      = pydanticize abcFlatA abcCandidate ∧
    pydanticize abcFlatA abcCandidate = abcFlatA :=
  pydanticize_idempotent abcFlatA abcCandidate
    (by simp [abcFlatA, abcCandidate, wfVal, wfFields, distinctKeys, lookupSplit, lookupKey])

end DepBroker
